import Mathlib

set_option maxRecDepth 8000

/-
Verification of popper/util.py (the planning layer of the Popper ILP system):
literal scheduling (order_rule, order_rule_datalog), program canonicalization
(reduce_prog, order_prog), subsumption (rule_subsumes, theory_subsumes) and
the search-space enumerator (bias_order).

Python sets are modelled as lists iterated in a fixed (insertion) order, with
set(body) modelled by List.dedup; machine ints are Nat (Int where Python
subtraction can go negative); a raised exception is Except.error carrying the
message the source builds.
-/

/-- Argument binding direction from the bias declarations: in (+), out (-), or
unspecified (?). -/
inductive Direction where
  | input
  | output
  | unbound
deriving DecidableEq, Repr

/-- Modelled from the spec: class Literal lives in popper/core.py, which is not
under src/. Per spec section 3 a literal is an immutable value of a predicate
symbol, an ordered argument list (duplicates allowed) and a same-length
direction list. -/
structure Literal where
  predicate : String
  arguments : List String
  directions : List Direction
deriving DecidableEq, Repr

/-- Modelled from the spec: inputs is the set of arguments at input-moded
positions (computed on demand, a set). -/
def Literal.inputs (l : Literal) : Finset String :=
  (((l.directions.zip l.arguments).filter
      (fun p => decide (p.1 = Direction.input))).map Prod.snd).toFinset

/-- Modelled from the spec: outputs is the set of arguments at output-moded
positions. -/
def Literal.outputs (l : Literal) : Finset String :=
  (((l.directions.zip l.arguments).filter
      (fun p => decide (p.1 = Direction.output))).map Prod.snd).toFinset

/-- A rule is an optional head literal (none marks a constraint/denial) paired
with its body literals. -/
abbrev Rule := Option Literal × List Literal

/-- util.py format_literal: predicate followed by the comma-joined arguments in
parentheses. -/
def format_literal (l : Literal) : String :=
  l.predicate ++ "(" ++ String.intercalate "," l.arguments ++ ")"

/-- util.py format_rule: the head rendering (empty for a headless rule),
followed by colon-dash, the comma-joined body, and a period. -/
def format_rule (rule : Rule) : String :=
  let head_str := match rule.1 with
    | some h => format_literal h
    | none => ""
  head_str ++ ":- " ++ String.intercalate "," (rule.2.map format_literal) ++ "."

/-- The message of the ValueError raised by order_rule when no literal can be
selected.  The source interpolates the variable selected_literal, which is
always None on that branch, so the message literally starts with None. -/
def stuck_message (rule : Rule) : String :=
  "None in clause " ++ format_rule rule ++ " could not be grounded"

/-- The non-recursive-literal test inside order_rule's selection loop: the
head exists and the literal's predicate differs from the head's. -/
def head_nonrec (head : Option Literal) (l : Literal) : Bool :=
  match head with
  | some hd => decide (l.predicate ≠ hd.predicate)
  | none => false

/-- One pass of order_rule's inner for-loop over the remaining body literals,
with acc playing the role of the selected_literal variable: a literal whose
whole argument list is output-moded is taken immediately; a literal whose
inputs are not yet grounded is skipped; a ground non-recursive literal is
taken immediately; otherwise the first ground (necessarily recursive or
headless-rule) literal is remembered and the scan continues. -/
def select_go (head : Option Literal) (grounded : Finset String) :
    List Literal → Option Literal → Option Literal
  | [], acc => acc
  | l :: rest, acc =>
    if l.outputs.card = l.arguments.length then some l
    else if ¬ l.inputs ⊆ grounded then select_go head grounded rest acc
    else if head_nonrec head l then some l
    else
      match acc with
      | some a => select_go head grounded rest (some a)
      | none => select_go head grounded rest (some l)

/-- order_rule's while-loop: repeatedly select a literal, append it, add its
outputs to the grounded set, and remove it from the remaining pool.  The fuel
argument (instantiated with the pool's length) makes the recursion structural;
msg is the ValueError message of the enclosing call. -/
def orderRuleGo (head : Option Literal) (msg : String) :
    Nat → Finset String → List Literal → Except String (List Literal)
  | _, _, [] => Except.ok []
  | 0, _, _ :: _ => Except.error msg
  | fuel + 1, grounded, l1 :: rest =>
    match select_go head grounded (l1 :: rest) none with
    | none => Except.error msg
    | some l =>
      Except.map (fun tl => l :: tl)
        (orderRuleGo head msg fuel (grounded ∪ l.outputs) ((l1 :: rest).erase l))

/-- util.py order_rule (settings=None path): if the head exists and its input
set is empty the rule is returned unchanged; otherwise the grounded set starts
as the head's inputs (empty for a headless rule) and the selection loop runs on
set(body), modelled as body.dedup. -/
def order_rule (rule : Rule) : Except String Rule :=
  match rule with
  | (some h, body) =>
    if h.inputs = ∅ then Except.ok (some h, body)
    else
      Except.map (fun ob => ((some h : Option Literal), ob))
        (orderRuleGo (some h) (stuck_message (some h, body))
          body.dedup.length h.inputs body.dedup)
  | (none, body) =>
    Except.map (fun ob => ((none : Option Literal), ob))
      (orderRuleGo none (stuck_message (none, body))
        body.dedup.length ∅ body.dedup)

/-- The grounding-safety invariant: read left to right, every literal's inputs
are contained in the running grounded set, which accumulates each literal's
outputs. -/
def grounding_safe (g : Finset String) : List Literal → Bool
  | [] => true
  | l :: rest => decide (l.inputs ⊆ g) && grounding_safe (g ∪ l.outputs) rest

/-- The grounded set order_rule starts from: the head's inputs, or empty for a
headless rule. -/
def head_grounded (head : Option Literal) : Finset String :=
  match head with
  | some h => h.inputs
  | none => ∅

deriving instance DecidableEq for Except

/-- The slice of the run-level Settings object consumed by order_rule_datalog
and bias_order: the experimental flags, the size bounds, the body-predicate
set, and the recall table (a partial map, modelling the Python dict). -/
structure Settings where
  no_bias : Bool
  order_space : Bool
  max_vars : Nat
  max_rules : Nat
  max_body : Nat
  max_arity : Nat
  body_preds : Finset (String × Nat)
  recall_table : String × String → Option Nat

/-- The boundedness bitstring of tmp_score inside order_rule_datalog: one
character per argument, 1 when the argument has been seen. -/
def bound_key (seen : Finset String) (args : List String) : String :=
  String.mk (args.map fun x => if x ∈ seen then '1' else '0')

/-- tmp_score inside order_rule_datalog: the recall of (predicate, boundedness
bitstring), defaulting to 1000000 when the table has no entry. -/
def tmp_score (s : Settings) (seen : Finset String) (l : Literal) : Nat :=
  match s.recall_table (l.predicate, bound_key seen l.arguments) with
  | some v => v
  | none => 1000000

/-- order_rule_datalog's primary selection: the first remaining literal whose
argument set is contained in the seen variables. -/
def dl_select (seen : Finset String) : List Literal → Option Literal
  | [] => none
  | l :: rest =>
    if l.arguments.toFinset ⊆ seen then some l else dl_select seen rest

/-- order_rule_datalog's fallback: the first remaining literal of minimal
tmp_score (sorted(...)[0] on a stable sort). -/
def pickMin (score : Literal → Nat) : List Literal → Option Literal
  | [] => none
  | x :: xs =>
    match pickMin score xs with
    | none => some x
    | some y => if score y < score x then some y else some x

/-- order_rule_datalog's while-loop: take a fully-seen literal if one exists,
otherwise the minimal-recall literal; union the selected literal's whole
argument set into seen and remove it from the pool.  Fuel as in orderRuleGo;
this loop never fails. -/
def orderRuleDatalogGo (s : Settings) :
    Nat → Finset String → List Literal → List Literal
  | _, _, [] => []
  | 0, _, rem => rem
  | fuel + 1, seen, x :: rest =>
    let sel :=
      match dl_select seen (x :: rest) with
      | some l => l
      | none =>
        match pickMin (tmp_score s seen) (x :: rest) with
        | some l => l
        | none => x
    sel :: orderRuleDatalogGo s fuel (seen ∪ sel.arguments.toFinset)
      ((x :: rest).erase sel)

/-- util.py order_rule_datalog: seen starts as the head's full argument set
(input/output is not distinguished) and the loop runs on set(body). -/
def order_rule_datalog (s : Settings) (rule : Rule) : Rule :=
  match rule with
  | (head, body) =>
    let seen0 : Finset String :=
      match head with
      | some h => h.arguments.toFinset
      | none => ∅
    (head, orderRuleDatalogGo s body.dedup.length seen0 body.dedup)

/-- The (predicate, arguments) signature that reduce_prog's local f computes
for a literal. -/
abbrev Sig := String × List String

/-- reduce_prog's f. -/
def litSig (l : Literal) : Sig :=
  (l.predicate, l.arguments)

/-- A body reduced to its set of literal signatures (the frozenset reduce_prog
builds). -/
def bodySig (body : List Literal) : Finset Sig :=
  (body.map litSig).toFinset

/-- Insertion into a Python dict modelled as an association list: an existing
key keeps its position but takes the new value; a new key goes to the end. -/
def upsert {K V : Type} [DecidableEq K] (k : K) (v : V) :
    List (K × V) → List (K × V)
  | [] => [(k, v)]
  | (k0, v0) :: rest =>
    if k0 = k then (k0, v) :: rest else (k0, v0) :: upsert k v rest

/-- reduce_prog's loop over the program.  Applying f to a rule whose head is
None raises an AttributeError (None has no predicate attribute), modelled as
the none result. -/
def reduce_prog_go :
    List Rule → List ((Sig × Finset Sig) × Rule) → Option (List ((Sig × Finset Sig) × Rule))
  | [], acc => some acc
  | (none, _) :: _, _ => none
  | (some h, body) :: rest, acc =>
    reduce_prog_go rest (upsert (litSig h, bodySig body) (some h, body) acc)

/-- util.py reduce_prog: index every rule by (head signature, body signature
set) in a dict and return the values. -/
def reduce_prog (prog : List Rule) : Option (List Rule) :=
  (reduce_prog_go prog []).map (List.map Prod.snd)

/-- util.py rule_is_recursive: a headed rule some body literal of which shares
the head's predicate.  Bodies are lists of literals here, so the isinstance
guard of the source is always true. -/
def rule_is_recursive (rule : Rule) : Bool :=
  match rule.1 with
  | none => false
  | some h => rule.2.any fun l => decide (l.predicate = h.predicate)

/-- The recursiveness component of order_prog's sort key, with Python's
False < True rendered as 0 < 1. -/
def rec_key (rule : Rule) : Nat :=
  if rule_is_recursive rule then 1 else 0

/-- The sort relation of order_prog: lexicographic on (is-recursive, body
length). -/
def progLe (a b : Rule) : Prop :=
  rec_key a < rec_key b ∨ (rec_key a = rec_key b ∧ a.2.length ≤ b.2.length)

instance : DecidableRel progLe := fun a b => by
  unfold progLe; infer_instance

instance : IsTotal Rule progLe := by
  constructor; intro a b; unfold progLe; omega

instance : IsTrans Rule progLe := by
  constructor; intro a b c; unfold progLe; omega

/-- util.py order_prog: a stable sort of the program by (is-recursive, body
length). -/
def order_prog (prog : List Rule) : List Rule :=
  List.insertionSort progLe prog

/-- A rule as rule_subsumes receives it: an optional head and a body already
reduced to a signature set. -/
abbrev RuleC := Option Sig × Finset Sig

/-- util.py rule_subsumes: false when r1 has a head and r2 does not; otherwise
body-set containment. -/
def rule_subsumes (r1 r2 : RuleC) : Bool :=
  match r1, r2 with
  | (h1, b1), (h2, b2) =>
    if h1 ≠ none ∧ h2 = none then false else decide (b1 ⊆ b2)

/-- util.py theory_subsumes: every rule of prog2 is subsumed by some rule of
prog1. -/
def theory_subsumes (prog1 prog2 : List RuleC) : Bool :=
  prog2.all fun r2 => prog1.any fun r1 => rule_subsumes r1 r2

/-- One entry of the search order: (literal count, variable count, rule count,
estimated space). -/
abbrev SearchEntry := Nat × Nat × Nat × Option Nat

/-- bias_order's expanded sweep (taken when no_bias or order_space is set):
rule count from min_rules to max_rules, literal count from 1 to
(1+max_body)*rule count, variable count ascending with the inner loop broken
once it exceeds literal count * arity - 1; configurations of zero estimated
space, and multi-rule configurations of fewer than 5 literals, are dropped. -/
def bias_order_expanded (s : Settings) : List (Nat × Nat × Nat × Nat) :=
  let predicates := s.body_preds.card + 1
  let arity := s.max_arity
  let min_rules := if s.no_bias then 1 else s.max_rules
  (List.range' min_rules (s.max_rules + 1 - min_rules)).flatMap fun size_rules =>
    let max_size := (1 + s.max_body) * size_rules
    (List.range' 1 max_size).flatMap fun size_literals =>
      let minimum_vars := if s.no_bias then 1 else s.max_vars
      ((List.range' minimum_vars (s.max_vars + 1 - minimum_vars)).takeWhile
          fun (size_vars : Nat) =>
            decide (¬ ((size_vars : Int) > ((size_literals * arity : Nat) : Int) - 1))).filterMap
        fun size_vars =>
          let hspace := Nat.choose (predicates * size_vars ^ arity) size_literals
          if hspace = 0 then none
          else if 1 < size_rules ∧ size_literals < 5 then none
          else some (size_literals, size_vars, size_rules, hspace)

/-- The sort relation of bias_order under order_space: lexicographic on
(estimated space, literal count). -/
def spaceLe (a b : Nat × Nat × Nat × Nat) : Prop :=
  a.2.2.2 < b.2.2.2 ∨ (a.2.2.2 = b.2.2.2 ∧ a.1 ≤ b.1)

instance : DecidableRel spaceLe := fun a b => by
  unfold spaceLe; infer_instance

instance : IsTotal (Nat × Nat × Nat × Nat) spaceLe := by
  constructor; intro a b; unfold spaceLe; omega

instance : IsTrans (Nat × Nat × Nat × Nat) spaceLe := by
  constructor; intro a b c; unfold spaceLe; omega

/-- util.py bias_order: in simple mode (neither no_bias nor order_space), one
entry per literal count from 1 to max_size - 1 carrying max_vars, max_rules
and no estimate; otherwise the expanded sweep, sorted by (estimated space,
literal count) when order_space is set. -/
def bias_order (s : Settings) (max_size : Nat) : List SearchEntry :=
  if ¬ (s.no_bias = true ∨ s.order_space = true) then
    (List.range' 1 (max_size - 1)).map fun size_literals =>
      (size_literals, s.max_vars, s.max_rules, (none : Option Nat))
  else
    (if s.order_space = true then
        List.insertionSort spaceLe (bias_order_expanded s)
      else bias_order_expanded s).map
      fun t => (t.1, t.2.1, t.2.2.1, some t.2.2.2)

/-- Lexicographic comparison of search entries by (estimated space, literal
count), reading a missing estimate as 0. -/
def entryLex (a b : SearchEntry) : Prop :=
  a.2.2.2.getD 0 < b.2.2.2.getD 0 ∨
    (a.2.2.2.getD 0 = b.2.2.2.getD 0 ∧ a.1 ≤ b.1)

/-- A concrete settings value with order_space on, used to exercise
bias_order's expanded branch. -/
def settings_space : Settings :=
  ⟨false, true, 1, 1, 1, 1, {("q", 1)}, fun _ => none⟩

/-- A concrete settings value with both experimental flags off, used to
exercise bias_order's simple branch. -/
def settings_simple : Settings :=
  ⟨false, false, 6, 2, 6, 2, ∅, fun _ => none⟩

theorem except_map_ok {α β : Type} {f : α → β} {e : Except String α} {b : β}
    (h : Except.map f e = Except.ok b) : ∃ a, e = Except.ok a ∧ b = f a := by
  cases e with
  | error s => simp [Except.map] at h
  | ok a => exact ⟨a, rfl, by simpa [Except.map] using h.symm⟩

theorem select_go_mem (head : Option Literal) (g : Finset String) :
    ∀ (lits : List Literal) (acc : Option Literal) (l : Literal),
      select_go head g lits acc = some l → l ∈ lits ∨ acc = some l := by
  intro lits
  induction lits with
  | nil =>
    intro acc l h
    exact Or.inr h
  | cons x rest ih =>
    intro acc l h
    simp only [select_go] at h
    split at h
    · exact Or.inl (by cases h; exact List.mem_cons_self x rest)
    · split at h
      · rcases ih _ _ h with h1 | h2
        · exact Or.inl (List.mem_cons_of_mem _ h1)
        · exact Or.inr h2
      · split at h
        · exact Or.inl (by cases h; exact List.mem_cons_self x rest)
        · cases acc with
          | some a =>
            rcases ih _ _ h with h1 | h2
            · exact Or.inl (List.mem_cons_of_mem _ h1)
            · exact Or.inr h2
          | none =>
            rcases ih _ _ h with h1 | h2
            · exact Or.inl (List.mem_cons_of_mem _ h1)
            · exact Or.inl (by cases h2; exact List.mem_cons_self x rest)

theorem select_go_elig (head : Option Literal) (g : Finset String) :
    ∀ (lits : List Literal) (acc : Option Literal) (l : Literal),
      (∀ a, acc = some a → a.inputs ⊆ g) →
      select_go head g lits acc = some l →
      l.outputs.card = l.arguments.length ∨ l.inputs ⊆ g := by
  intro lits
  induction lits with
  | nil =>
    intro acc l hacc h
    exact Or.inr (hacc l h)
  | cons x rest ih =>
    intro acc l hacc h
    simp only [select_go] at h
    split at h
    · cases h
      exact Or.inl (by assumption)
    · split at h
      · exact ih _ _ hacc h
      · rename_i hgen hsub
        have hx : x.inputs ⊆ g := not_not.mp hsub
        split at h
        · cases h
          exact Or.inr hx
        · cases acc with
          | some a => exact ih _ _ hacc h
          | none =>
            refine ih _ _ ?_ h
            intro a ha
            cases ha
            exact hx

theorem select_go_stuck (head : Option Literal) (g : Finset String) :
    ∀ lits : List Literal,
      (∀ l ∈ lits, ¬ l.outputs.card = l.arguments.length ∧ ¬ l.inputs ⊆ g) →
      ∀ acc, select_go head g lits acc = acc := by
  intro lits
  induction lits with
  | nil => intro _ acc; rfl
  | cons x rest ih =>
    intro hall acc
    obtain ⟨h1, h2⟩ := hall x (List.mem_cons_self x rest)
    simp only [select_go]
    rw [if_neg h1, if_pos h2]
    exact ih (fun l hl => hall l (List.mem_cons_of_mem _ hl)) acc

theorem generator_inputs_empty (l : Literal)
    (h : l.outputs.card = l.arguments.length) : l.inputs = ∅ := by
  set zl := l.directions.zip l.arguments with hz
  have hcard : l.outputs.card ≤
      (zl.filter (fun p => decide (p.1 = Direction.output))).length := by
    calc l.outputs.card
        ≤ ((zl.filter (fun p => decide (p.1 = Direction.output))).map Prod.snd).length :=
          List.toFinset_card_le _
      _ = _ := List.length_map _ _
  have hfl : (zl.filter (fun p => decide (p.1 = Direction.output))).length ≤ zl.length :=
    List.length_filter_le _ _
  have hzl : zl.length ≤ l.arguments.length := by
    rw [hz, List.length_zip]
    exact Nat.min_le_right _ _
  have heq : (zl.filter (fun p => decide (p.1 = Direction.output))).length = zl.length := by
    omega
  have hfe : zl.filter (fun p => decide (p.1 = Direction.output)) = zl :=
    List.Sublist.eq_of_length (List.filter_sublist _) heq
  have hall : ∀ p ∈ zl, p.1 = Direction.output := by
    intro p hp
    have := List.filter_eq_self.mp hfe p hp
    simpa using this
  have hnil : zl.filter (fun p => decide (p.1 = Direction.input)) = [] := by
    rw [List.filter_eq_nil_iff]
    intro p hp
    simp [hall p hp]
  rw [Literal.inputs, ← hz, hnil]
  rfl

theorem orderRuleGo_perm (head : Option Literal) (msg : String) :
    ∀ (fuel : Nat) (g : Finset String) (rem ob : List Literal),
      rem.length ≤ fuel → orderRuleGo head msg fuel g rem = Except.ok ob →
      ob.Perm rem := by
  intro fuel
  induction fuel with
  | zero =>
    intro g rem ob hlen heq
    match rem with
    | [] =>
      simp only [orderRuleGo, Except.ok.injEq] at heq
      rw [← heq]
    | _ :: _ => simp at hlen
  | succ n ih =>
    intro g rem ob hlen heq
    match rem with
    | [] =>
      simp only [orderRuleGo, Except.ok.injEq] at heq
      rw [← heq]
    | l1 :: rest =>
      simp only [orderRuleGo] at heq
      cases hsel : select_go head g (l1 :: rest) none with
      | none => rw [hsel] at heq; simp at heq
      | some l =>
        rw [hsel] at heq
        obtain ⟨tl, htl, hob⟩ := except_map_ok heq
        have hmem : l ∈ l1 :: rest := by
          rcases select_go_mem head g _ _ _ hsel with h | h
          · exact h
          · cases h
        have hlen2 : ((l1 :: rest).erase l).length ≤ n := by
          rw [List.length_erase_of_mem hmem]
          simp only [List.length_cons] at hlen ⊢
          omega
        have hp := ih _ _ _ hlen2 htl
        rw [hob]
        exact (hp.cons l).trans (List.perm_cons_erase hmem).symm

theorem orderRuleGo_safe (head : Option Literal) (msg : String) :
    ∀ (fuel : Nat) (g : Finset String) (rem ob : List Literal),
      orderRuleGo head msg fuel g rem = Except.ok ob →
      grounding_safe g ob = true := by
  intro fuel
  induction fuel with
  | zero =>
    intro g rem ob heq
    match rem with
    | [] =>
      simp only [orderRuleGo, Except.ok.injEq] at heq
      rw [← heq]
      rfl
    | _ :: _ => simp [orderRuleGo] at heq
  | succ n ih =>
    intro g rem ob heq
    match rem with
    | [] =>
      simp only [orderRuleGo, Except.ok.injEq] at heq
      rw [← heq]
      rfl
    | l1 :: rest =>
      simp only [orderRuleGo] at heq
      cases hsel : select_go head g (l1 :: rest) none with
      | none => rw [hsel] at heq; simp at heq
      | some l =>
        rw [hsel] at heq
        obtain ⟨tl, htl, hob⟩ := except_map_ok heq
        have helig := select_go_elig head g _ _ _ (fun a ha => by cases ha) hsel
        have hsubset : l.inputs ⊆ g := by
          rcases helig with hgen | hsub
          · rw [generator_inputs_empty l hgen]
            exact Finset.empty_subset g
          · exact hsub
        have hrec := ih _ _ _ htl
        rw [hob]
        simp [grounding_safe, hsubset, hrec]

theorem dl_select_mem (seen : Finset String) :
    ∀ (lits : List Literal) (l : Literal),
      dl_select seen lits = some l → l ∈ lits := by
  intro lits
  induction lits with
  | nil => intro l h; simp [dl_select] at h
  | cons x rest ih =>
    intro l h
    simp only [dl_select] at h
    split at h
    · cases h; exact List.mem_cons_self x rest
    · exact List.mem_cons_of_mem _ (ih _ h)

theorem pickMin_mem (score : Literal → Nat) :
    ∀ (lits : List Literal) (l : Literal),
      pickMin score lits = some l → l ∈ lits := by
  intro lits
  induction lits with
  | nil => intro l h; simp [pickMin] at h
  | cons x rest ih =>
    intro l h
    cases hrec : pickMin score rest with
    | none =>
      simp only [pickMin, hrec] at h
      cases h
      exact List.mem_cons_self x rest
    | some y =>
      simp only [pickMin, hrec] at h
      split at h
      · injection h with h2
        subst h2
        exact List.mem_cons_of_mem _ (ih _ hrec)
      · injection h with h2
        subst h2
        exact List.mem_cons_self x rest

theorem orderRuleDatalogGo_perm (s : Settings) :
    ∀ (fuel : Nat) (seen : Finset String) (rem : List Literal),
      (orderRuleDatalogGo s fuel seen rem).Perm rem := by
  intro fuel
  induction fuel with
  | zero =>
    intro seen rem
    cases rem <;> simp [orderRuleDatalogGo]
  | succ n ih =>
    intro seen rem
    match rem with
    | [] => simp [orderRuleDatalogGo]
    | x :: rest =>
      cases hd : dl_select seen (x :: rest) with
      | some l =>
        have hmem := dl_select_mem seen _ _ hd
        simp only [orderRuleDatalogGo, hd]
        exact ((ih _ _).cons l).trans (List.perm_cons_erase hmem).symm
      | none =>
        cases hp : pickMin (tmp_score s seen) (x :: rest) with
        | some l =>
          have hmem := pickMin_mem _ _ _ hp
          simp only [orderRuleDatalogGo, hd, hp]
          exact ((ih _ _).cons l).trans (List.perm_cons_erase hmem).symm
        | none =>
          have hmem : x ∈ x :: rest := List.mem_cons_self x rest
          simp only [orderRuleDatalogGo, hd, hp]
          exact ((ih _ _).cons x).trans (List.perm_cons_erase hmem).symm

/-- C1 (corrected): for every rule that order_rule orders without error and
whose head, when present, has a nonempty input set — so for every rule that
actually enters the selection loop rather than taking the unchanged-return
branch — every literal of the returned ordered body has its input variables
contained in the union of the head's input variables and the outputs of the
literals placed strictly before it. -/
theorem order_rule_grounding_safe (head : Option Literal) (body : List Literal)
    (h2 : Option Literal) (ob : List Literal)
    (hhead : ∀ h, head = some h → h.inputs ≠ ∅)
    (heq : order_rule (head, body) = Except.ok (h2, ob)) :
    grounding_safe (head_grounded head) ob = true := by
  cases head with
  | some h =>
    have hne := hhead h rfl
    simp only [order_rule, if_neg hne] at heq
    obtain ⟨tl, htl, hpair⟩ := except_map_ok heq
    have hob : ob = tl := congrArg Prod.snd hpair
    rw [hob]
    exact orderRuleGo_safe _ _ _ _ _ _ htl
  | none =>
    simp only [order_rule] at heq
    obtain ⟨tl, htl, hpair⟩ := except_map_ok heq
    have hob : ob = tl := congrArg Prod.snd hpair
    rw [hob]
    exact orderRuleGo_safe _ _ _ _ _ _ htl

/-- C1 witness: a rule p(A):-q(A) with p's argument input-moded and q's
argument input-moded is ordered successfully and its ordered body is
grounding-safe. -/
theorem order_rule_grounding_safe_witness :
    grounding_safe
      (head_grounded (some ⟨"p", ["A"], [Direction.input]⟩))
      [⟨"q", ["A"], [Direction.input]⟩] = true :=
  order_rule_grounding_safe (some ⟨"p", ["A"], [Direction.input]⟩)
    [⟨"q", ["A"], [Direction.input]⟩]
    (some ⟨"p", ["A"], [Direction.input]⟩) [⟨"q", ["A"], [Direction.input]⟩]
    (by intro h hh; cases hh; decide) (by decide)

/-- C1 counterexample: the claim as stated fails on the unchanged-return
branch.  The rule p(A):-q(A) with p's argument output-moded has an empty head
input set, so order_rule returns it unchanged (no error), yet the body literal
q(A) is input-moded on A, which is in neither the head's inputs nor any
earlier literal's outputs. -/
theorem order_rule_grounding_safe_ce :
    order_rule (some ⟨"p", ["A"], [Direction.output]⟩,
        [⟨"q", ["A"], [Direction.input]⟩]) =
      Except.ok (some ⟨"p", ["A"], [Direction.output]⟩,
        [⟨"q", ["A"], [Direction.input]⟩]) ∧
    grounding_safe (head_grounded (some ⟨"p", ["A"], [Direction.output]⟩))
      [⟨"q", ["A"], [Direction.input]⟩] = false := by
  decide

/-- C2: for every rule the scheduler orders without raising, the ordered body
is a permutation of the original body (none omitted, none duplicated); this
holds for the mode-directed order_rule and for the recall-directed
order_rule_datalog alike (bodies are sets in the source, rendered here as
duplicate-free lists). -/
theorem order_rule_body_perm :
    (∀ (head : Option Literal) (body : List Literal)
        (h2 : Option Literal) (ob : List Literal),
        body.Nodup → order_rule (head, body) = Except.ok (h2, ob) →
        ob.Perm body) ∧
    (∀ (s : Settings) (head : Option Literal) (body : List Literal),
        body.Nodup → (order_rule_datalog s (head, body)).2.Perm body) := by
  constructor
  · intro head body h2 ob hnd heq
    have hded : body.dedup = body := List.dedup_eq_self.mpr hnd
    cases head with
    | some h =>
      by_cases hin : h.inputs = ∅
      · simp only [order_rule, if_pos hin, Except.ok.injEq] at heq
        have hob : body = ob := congrArg Prod.snd heq
        rw [← hob]
      · simp only [order_rule, if_neg hin] at heq
        obtain ⟨tl, htl, hpair⟩ := except_map_ok heq
        have hob : ob = tl := congrArg Prod.snd hpair
        rw [hob, ← hded]
        exact orderRuleGo_perm _ _ _ _ _ _ (le_refl _) htl
    | none =>
      simp only [order_rule] at heq
      obtain ⟨tl, htl, hpair⟩ := except_map_ok heq
      have hob : ob = tl := congrArg Prod.snd hpair
      rw [hob, ← hded]
      exact orderRuleGo_perm _ _ _ _ _ _ (le_refl _) htl
  · intro s head body hnd
    have hded : body.dedup = body := List.dedup_eq_self.mpr hnd
    simp only [order_rule_datalog]
    rw [hded]
    exact orderRuleDatalogGo_perm s _ _ _

/-- C2 witness: ordering p(A):-r(B),q(A,B) (p input-moded, q a forward mode
A-to-B, r input-moded) succeeds with the body reordered to q(A,B),r(B), a
permutation of the original body. -/
theorem order_rule_body_perm_witness :
    ([⟨"q", ["A", "B"], [Direction.input, Direction.output]⟩,
      ⟨"r", ["B"], [Direction.input]⟩] : List Literal).Perm
      [⟨"r", ["B"], [Direction.input]⟩,
       ⟨"q", ["A", "B"], [Direction.input, Direction.output]⟩] :=
  order_rule_body_perm.1 (some ⟨"p", ["A"], [Direction.input]⟩)
    [⟨"r", ["B"], [Direction.input]⟩,
     ⟨"q", ["A", "B"], [Direction.input, Direction.output]⟩]
    (some ⟨"p", ["A"], [Direction.input]⟩)
    [⟨"q", ["A", "B"], [Direction.input, Direction.output]⟩,
     ⟨"r", ["B"], [Direction.input]⟩]
    (by decide) (by decide)

/-- C4: a rule whose head exists and has an empty input-variable set is
returned unchanged by order_rule, body untouched. -/
theorem order_rule_no_input_head_unchanged (h : Literal) (body : List Literal)
    (hin : h.inputs = ∅) :
    order_rule (some h, body) = Except.ok (some h, body) := by
  simp [order_rule, hin]

/-- C4 witness: a rule headed by p(A) with A output-moded (empty input set)
comes back unchanged, stuck body literal and all. -/
theorem order_rule_no_input_head_unchanged_witness :
    order_rule (some ⟨"p", ["A"], [Direction.output]⟩,
        [⟨"s", ["C"], [Direction.input]⟩]) =
      Except.ok (some ⟨"p", ["A"], [Direction.output]⟩,
        [⟨"s", ["C"], [Direction.input]⟩]) :=
  order_rule_no_input_head_unchanged ⟨"p", ["A"], [Direction.output]⟩
    [⟨"s", ["C"], [Direction.input]⟩] (by decide)

/-- C6 (code bug evidence): when no body literal can be selected, order_rule
raises a ValueError whose message interpolates the selected_literal variable
— which is always None on that branch — so the diagnostic names the rule's
textual form but never the stuck literal.  On p(A):-q(B) (both input-moded)
the message is literally "None in clause p(A):- q(B). could not be
grounded". -/
theorem order_rule_stuck_message_none :
    order_rule (some ⟨"p", ["A"], [Direction.input]⟩,
        [⟨"q", ["B"], [Direction.input]⟩]) =
      Except.error "None in clause p(A):- q(B). could not be grounded" := by
  decide

/-- C10: a headless (constraint) rule is never returned unchanged: order_rule
runs the selection loop on it with an initially empty grounded set (first
conjunct, the definitional unfolding), and when every body literal is a
non-generator with a nonempty input set the loop raises the grounding
ValueError instead of returning the rule (second conjunct). -/
theorem order_rule_headless_runs_loop (body : List Literal)
    (hne : body ≠ [])
    (hstuck : ∀ l ∈ body,
      ¬ l.outputs.card = l.arguments.length ∧ l.inputs ≠ ∅) :
    order_rule ((none : Option Literal), body) =
      Except.map (fun ob => ((none : Option Literal), ob))
        (orderRuleGo none (stuck_message (none, body))
          body.dedup.length ∅ body.dedup) ∧
    order_rule ((none : Option Literal), body) =
      Except.error (stuck_message (none, body)) := by
  refine ⟨rfl, ?_⟩
  have hdne : body.dedup ≠ [] := by
    simpa [List.dedup_eq_nil] using hne
  obtain ⟨x, rest, hx⟩ := List.exists_cons_of_ne_nil hdne
  have hstuck2 : ∀ l ∈ x :: rest,
      ¬ l.outputs.card = l.arguments.length ∧
        ¬ l.inputs ⊆ (∅ : Finset String) := by
    intro l hl
    have hlb : l ∈ body := List.mem_dedup.mp (hx ▸ hl)
    obtain ⟨ha, hb⟩ := hstuck l hlb
    exact ⟨ha, by simpa [Finset.subset_empty] using hb⟩
  have hsel : select_go none ∅ (x :: rest) none = none :=
    select_go_stuck none ∅ _ hstuck2 none
  simp only [order_rule, hx, List.length_cons, orderRuleGo, hsel]
  rfl

/-- C10 witness: the headless rule :-q(B) with q input-moded raises the
grounding error. -/
theorem order_rule_headless_runs_loop_witness :
    order_rule ((none : Option Literal), [⟨"q", ["B"], [Direction.input]⟩]) =
      Except.error
        (stuck_message (none, [⟨"q", ["B"], [Direction.input]⟩])) :=
  (order_rule_headless_runs_loop [⟨"q", ["B"], [Direction.input]⟩]
    (by decide) (by decide)).2

/-- C3 (corrected): rule_subsumes(R1,R2) is true iff (R1 has no head, or R2
has a head) and R1's body-signature set is contained in R2's — the head guard
blocks a headed rule from subsuming a headless one, the mirror image of the
claim's condition; theory_subsumes(P1,P2) is true iff every rule of P2 is
subsumed by some rule of P1; and the program p(A):-q(A). subsumes
p(A):-q(A),r(A). but not conversely. -/
theorem rule_subsumes_characterization :
    (∀ r1 r2 : RuleC,
        rule_subsumes r1 r2 = true ↔
          ((r1.1 = none ∨ r2.1 ≠ none) ∧ r1.2 ⊆ r2.2)) ∧
    (∀ p1 p2 : List RuleC,
        theory_subsumes p1 p2 = true ↔
          ∀ r2 ∈ p2, ∃ r1 ∈ p1, rule_subsumes r1 r2 = true) ∧
    (theory_subsumes [(some ("p", ["A"]), {("q", ["A"])})]
        [(some ("p", ["A"]), {("q", ["A"]), ("r", ["A"])})] = true ∧
      theory_subsumes [(some ("p", ["A"]), {("q", ["A"]), ("r", ["A"])})]
        [(some ("p", ["A"]), {("q", ["A"])})] = false) := by
  refine ⟨?_, ?_, by decide⟩
  · rintro ⟨hd1, b1⟩ ⟨hd2, b2⟩
    simp only [rule_subsumes]
    split
    · rename_i hcond
      constructor
      · intro hF
        exact absurd hF (by simp)
      · rintro ⟨hor, _⟩
        rcases hor with h | h
        · exact absurd h hcond.1
        · exact absurd hcond.2 h
    · rename_i hcond
      rw [not_and_or, not_ne_iff] at hcond
      simp only [decide_eq_true_eq]
      constructor
      · intro hb
        refine ⟨?_, hb⟩
        rcases hcond with h | h
        · exact Or.inl h
        · exact Or.inr (by simp [h])
      · rintro ⟨_, hb⟩
        exact hb
  · intro p1 p2
    simp [theory_subsumes, List.all_eq_true, List.any_eq_true]

/-- C3 counterexample: the claim's condition "(R1 has a head, or R2 also has
no head)" predicts that a headed rule whose body is contained in a headless
rule's body subsumes it; the code returns false exactly there. -/
theorem rule_subsumes_head_guard_ce :
    rule_subsumes (some ("p", ["A"]), ({("q", ["A"])} : Finset Sig))
        ((none : Option Sig), ({("q", ["A"])} : Finset Sig)) = false ∧
    ((some ("p", ["A"]) : Option Sig) ≠ none ∧
      ({("q", ["A"])} : Finset Sig) ⊆ {("q", ["A"])}) := by
  decide

/-- C5 (corrected): on a two-rule program whose rules both have heads,
reduce_prog keeps a single representative exactly when the heads reduce to the
same (predicate, arguments) pair and the bodies to the same signature set
(keeping the later rule), and keeps both rules otherwise; in particular
p(A,B):-q(A),r(B). and p(A,B):-r(B),q(A). reduce to one entry.  A rule with no
head makes reduce_prog fail instead of deduplicating (see the
counterexample). -/
theorem reduce_prog_dedup :
    (∀ (h1 : Literal) (b1 : List Literal) (h2 : Literal) (b2 : List Literal),
        reduce_prog [(some h1, b1), (some h2, b2)] =
          some (if litSig h1 = litSig h2 ∧ bodySig b1 = bodySig b2
                then [(some h2, b2)]
                else [(some h1, b1), (some h2, b2)])) ∧
    reduce_prog
        [(some ⟨"p", ["A", "B"], [Direction.unbound, Direction.unbound]⟩,
            [⟨"q", ["A"], [Direction.unbound]⟩, ⟨"r", ["B"], [Direction.unbound]⟩]),
         (some ⟨"p", ["A", "B"], [Direction.unbound, Direction.unbound]⟩,
            [⟨"r", ["B"], [Direction.unbound]⟩, ⟨"q", ["A"], [Direction.unbound]⟩])] =
      some [(some ⟨"p", ["A", "B"], [Direction.unbound, Direction.unbound]⟩,
        [⟨"r", ["B"], [Direction.unbound]⟩, ⟨"q", ["A"], [Direction.unbound]⟩])] := by
  constructor
  · intro h1 b1 h2 b2
    by_cases hk : litSig h1 = litSig h2 ∧ bodySig b1 = bodySig b2
    · have hkey : ((litSig h1, bodySig b1) : Sig × Finset Sig) =
          (litSig h2, bodySig b2) := by
        rw [hk.1, hk.2]
      simp [reduce_prog, reduce_prog_go, upsert, hkey, hk]
    · have hkey : ((litSig h1, bodySig b1) : Sig × Finset Sig) ≠
          (litSig h2, bodySig b2) := by
        intro hc
        exact hk ⟨congrArg Prod.fst hc, congrArg Prod.snd hc⟩
      simp [reduce_prog, reduce_prog_go, upsert, hkey, hk]
  · decide

/-- C5 counterexample: the claim says two headless rules with equal body
signatures are duplicates kept as one entry; reduce_prog instead fails on any
headless rule (the source takes predicate/arguments of a None head), so no
single-entry result exists. -/
theorem reduce_prog_headless_ce :
    reduce_prog [((none : Option Literal), [⟨"q", ["A"], [Direction.input]⟩]),
        ((none : Option Literal), [⟨"q", ["A"], [Direction.input]⟩])] =
      none := by
  decide

/-- C9: order_prog sorts a program by the key (is-recursive, body length):
the result is pairwise ordered by that lexicographic key (so every
non-recursive rule precedes every recursive one and, within each class, body
lengths ascend), it is a permutation of the input, and in particular the
non-recursive two-literal rule p(A):-q(A),r(A). is placed before the recursive
one-literal rule p(A):-p(A). even though its body is longer. -/
theorem order_prog_spec :
    (∀ prog : List Rule,
        (order_prog prog).Pairwise progLe ∧
        (order_prog prog).Perm prog ∧
        (order_prog prog).Pairwise (fun a b =>
          rule_is_recursive a = true → rule_is_recursive b = true)) ∧
    order_prog
        [(some ⟨"p", ["A"], [Direction.unbound]⟩,
            [⟨"p", ["B"], [Direction.unbound]⟩]),
         (some ⟨"p", ["A"], [Direction.unbound]⟩,
            [⟨"q", ["A"], [Direction.unbound]⟩, ⟨"r", ["A"], [Direction.unbound]⟩])] =
      [(some ⟨"p", ["A"], [Direction.unbound]⟩,
          [⟨"q", ["A"], [Direction.unbound]⟩, ⟨"r", ["A"], [Direction.unbound]⟩]),
       (some ⟨"p", ["A"], [Direction.unbound]⟩,
          [⟨"p", ["B"], [Direction.unbound]⟩])] := by
  constructor
  · intro prog
    refine ⟨List.sorted_insertionSort progLe prog, List.perm_insertionSort progLe prog, ?_⟩
    refine (List.sorted_insertionSort progLe prog).imp ?_
    intro a b hab hra
    by_cases hrb : rule_is_recursive b = true
    · exact hrb
    · exfalso
      unfold progLe rec_key at hab
      rw [if_pos hra, if_neg hrb] at hab
      omega
  · decide

theorem bias_order_expanded_mem_ne_zero (s : Settings)
    (t : Nat × Nat × Nat × Nat) (ht : t ∈ bias_order_expanded s) :
    t.2.2.2 ≠ 0 := by
  simp only [bias_order_expanded, List.mem_flatMap] at ht
  obtain ⟨sr, _, ht⟩ := ht
  obtain ⟨sl, _, ht⟩ := ht
  rw [List.mem_filterMap] at ht
  obtain ⟨sv, _, hv⟩ := ht
  by_cases h0 : Nat.choose ((s.body_preds.card + 1) * sv ^ s.max_arity) sl = 0
  · simp [h0] at hv
  · by_cases h5 : 1 < sr ∧ sl < 5
    · simp [h0, h5] at hv
    · rw [if_neg h0, if_neg h5] at hv
      injection hv with hv2
      rw [← hv2]
      exact h0

/-- C7: with order_space requested, the sequence bias_order produces is
pairwise ordered by the (estimated space, literal count) key — in particular
non-decreasing in estimated space — and every entry carries a nonzero
estimate, so no configuration of estimated size 0 appears. -/
theorem bias_order_order_space (s : Settings) (m : Nat)
    (h : s.order_space = true) :
    (∀ e ∈ bias_order s m, ∃ n, e.2.2.2 = some n ∧ n ≠ 0) ∧
    (bias_order s m).Pairwise entryLex := by
  have hcond : ¬ ¬ (s.no_bias = true ∨ s.order_space = true) := by
    simp [h]
  have hbo : bias_order s m =
      (List.insertionSort spaceLe (bias_order_expanded s)).map
        fun t => (t.1, t.2.1, t.2.2.1, some t.2.2.2) := by
    unfold bias_order
    rw [if_neg hcond, if_pos h]
  rw [hbo]
  constructor
  · intro e he
    rw [List.mem_map] at he
    obtain ⟨t, ht, rfl⟩ := he
    have ht2 : t ∈ bias_order_expanded s :=
      (List.perm_insertionSort spaceLe _).mem_iff.mp ht
    exact ⟨t.2.2.2, rfl, bias_order_expanded_mem_ne_zero s t ht2⟩
  · rw [List.pairwise_map]
    refine (List.sorted_insertionSort spaceLe (bias_order_expanded s)).imp ?_
    intro a b hab
    simpa [entryLex, spaceLe] using hab

/-- C7 witness: on the concrete order_space settings the enumerator output is
the single nonzero-estimate entry (2 literals, 1 variable, 1 rule, space 1),
trivially sorted. -/
theorem bias_order_order_space_witness :
    (bias_order settings_space 5).Pairwise entryLex :=
  (bias_order_order_space settings_space 5 rfl).2

/-- C8: in simple mode (neither no_bias nor order_space) bias_order yields one
entry per literal count from 1 to max_size - 1 in ascending order, each
carrying max_vars and max_rules unchanged with no space estimate; for
max_size = 5 that is exactly the literal counts 1,2,3,4. -/
theorem bias_order_simple (s : Settings) (m : Nat)
    (h1 : s.no_bias = false) (h2 : s.order_space = false) :
    (bias_order s m).map (fun e => e.1) = List.range' 1 (m - 1) ∧
    (∀ e ∈ bias_order s m,
      e.2.1 = s.max_vars ∧ e.2.2.1 = s.max_rules ∧ e.2.2.2 = none) ∧
    bias_order s 5 =
      [(1, s.max_vars, s.max_rules, none), (2, s.max_vars, s.max_rules, none),
       (3, s.max_vars, s.max_rules, none), (4, s.max_vars, s.max_rules, none)] := by
  have hcond : ¬ (s.no_bias = true ∨ s.order_space = true) := by
    simp [h1, h2]
  refine ⟨?_, ?_, ?_⟩
  · simp only [bias_order, if_pos hcond, List.map_map]
    have : ((fun e => e.1) ∘ fun size_literals =>
        ((size_literals, s.max_vars, s.max_rules, (none : Option Nat)) : SearchEntry)) =
        id := rfl
    rw [this, List.map_id]
  · intro e he
    simp only [bias_order, if_pos hcond, List.mem_map] at he
    obtain ⟨i, _, rfl⟩ := he
    exact ⟨rfl, rfl, rfl⟩
  · simp only [bias_order, if_pos hcond]
    rfl

/-- C8 witness: on concrete simple-mode settings (max_vars 6, max_rules 2) the
enumerator output for max_size 5 is the four ascending entries. -/
theorem bias_order_simple_witness :
    bias_order settings_simple 5 =
      [(1, 6, 2, none), (2, 6, 2, none), (3, 6, 2, none), (4, 6, 2, none)] :=
  (bias_order_simple settings_simple 5 rfl rfl).2.2
